import Mathlib

/-!
Verification of the batch/epoch management and synthetic-scene composition
engine of `util/input_data.py` (MNIST bandit-simulation data layer).

Shallow embedding notes:
* `DataSet` mirrors the Python `DataSet` object state: `_images`, `_labels`,
  `_num_examples`, `_epochs_completed`, `_index_in_epoch`, plus the
  `one_hot` attribute stored in fake-data mode.  Images and labels are kept
  as generic lists; their pixel contents play no role in the claims.
* Randomness (`numpy.random.shuffle`, `numpy.random.randint`,
  `numpy.random.choice`) is modelled by universally quantified draw
  parameters constrained to the ranges the numpy calls guarantee.
* Fallible numpy operations (index errors on out-of-range `arr[i]`,
  failed `assert`) are modelled with `Option`: `none` means the Python
  call raises.
* Exact rational / integer arithmetic replaces numpy float arithmetic;
  the claims under study are about exact values (clipping, sums of the
  probability vector), not rounding.
-/

/-- State of the Python `DataSet` object (fields `_images`, `_labels`,
`_num_examples`, `_epochs_completed`, `_index_in_epoch`, and the `one_hot`
attribute which the constructor stores in fake-data mode). -/
structure DataSet (α β : Type) where
  images : List α
  labels : List β
  numExamples : ℕ
  epochsCompleted : ℕ
  indexInEpoch : ℕ
  oneHot : Bool

/-- Numpy fancy indexing `xs[perm]`: pick out the entries of `xs` at the
positions listed in `perm` (an out-of-range position raises in numpy; here
it is simply skipped, and every permutation drawn by `numpy.random.shuffle`
of `arange(n)` is in range). -/
def applyPerm {α : Type} (perm : List ℕ) (xs : List α) : List α :=
  perm.filterMap (fun i => xs[i]?)

/-- `DataSet.next_batch` (lines 162-189), non-fake path.  `perm` is the
permutation drawn by `numpy.random.shuffle` if this call crosses the epoch
boundary.  The failing `assert batch_size <= self._num_examples` is
modelled as `none`. -/
def nextBatch {α β : Type} (perm : List ℕ) (batchSize : ℕ) (ds : DataSet α β) :
    Option ((List α × List β) × DataSet α β) :=
  if ds.numExamples < ds.indexInEpoch + batchSize then
    if batchSize ≤ ds.numExamples then
      some (((applyPerm perm ds.images).take batchSize,
             (applyPerm perm ds.labels).take batchSize),
        { ds with images := applyPerm perm ds.images,
                  labels := applyPerm perm ds.labels,
                  epochsCompleted := ds.epochsCompleted + 1,
                  indexInEpoch := batchSize })
    else none
  else
    some (((ds.images.drop ds.indexInEpoch).take batchSize,
           (ds.labels.drop ds.indexInEpoch).take batchSize),
      { ds with indexInEpoch := ds.indexInEpoch + batchSize })

/-- Repeated `next_batch` calls: `runN perms b k ds` performs `k` calls of
`nextBatch` with fixed batch size `b`; the `i`-th call uses the shuffle
draw `perms i`.  Returns the list of batches in call order and the final
state. -/
def runN {α β : Type} (perms : ℕ → List ℕ) (batchSize : ℕ) :
    ℕ → DataSet α β → Option (List (List α × List β) × DataSet α β)
  | 0, ds => some ([], ds)
  | k + 1, ds =>
    (nextBatch (perms 0) batchSize ds).bind (fun s =>
      (runN (fun i => perms (i + 1)) batchSize k s.2).map (fun t =>
        (s.1 :: t.1, t.2)))

/-- The class attribute `num_actions = 10` of `MNISTDataSet`. -/
def numActions : ℕ := 10

/-- The constant `H = 5` of `DataSet.random_policy` (line 201). -/
def rpH : ℚ := 5

/-- `DataSet.random_policy` reward (line 206):
`np.clip(2 - np.abs(action - y), 0, 5)` for one example, in integer
arithmetic (actions and labels are small integers). -/
def rpReward (action y : ℤ) : ℤ :=
  min (max (2 - |action - y|) 0) 5

/-- The unnormalized action-weight vector of `DataSet.random_policy`
(lines 202-203): `p = H/(num_actions-1) * ones(num_actions)` followed by
`p[y] = H`. -/
def rpVecWeights (y : Fin 10) : List ℚ :=
  (List.replicate numActions (rpH / ((numActions : ℚ) - 1))).set y.val rpH

/-- The action-probability vector of `DataSet.random_policy` after the
normalization `p /= num_actions` (line 204). -/
def rpVec (y : Fin 10) : List ℚ :=
  (rpVecWeights y).map (fun x => x / (numActions : ℚ))

/-- Claim C7: `next_batch` fails (with the `InvalidBatchSize` assertion,
checked in the reshuffle branch) exactly when the requested batch size
exceeds the pool size, and succeeds whenever `batchSize ≤ N`.  A batch
size larger than the pool always forces the reshuffle branch, so the
assertion is always reached in that case. -/
theorem c7_invalid_batch_size {α β : Type} (perm : List ℕ) (batchSize : ℕ)
    (ds : DataSet α β) :
    (batchSize ≤ ds.numExamples → (nextBatch perm batchSize ds).isSome = true) ∧
    (ds.numExamples < batchSize → nextBatch perm batchSize ds = none) := by
  refine ⟨fun hle => ?_, fun hlt => ?_⟩
  · unfold nextBatch
    by_cases h : ds.numExamples < ds.indexInEpoch + batchSize
    · simp [h, hle]
    · simp [h]
  · unfold nextBatch
    simp [show ds.numExamples < ds.indexInEpoch + batchSize from by omega,
      show ¬ batchSize ≤ ds.numExamples from by omega]

/-- Witness for C7 on a concrete three-example pool: batch size 2 succeeds,
batch size 5 fails. -/
theorem c7_invalid_batch_size_witness :
    (nextBatch ([] : List ℕ) 2
      (⟨[0, 1, 2], [0, 1, 2], 3, 0, 0, false⟩ : DataSet ℕ ℕ)).isSome = true ∧
    nextBatch ([] : List ℕ) 5
      (⟨[0, 1, 2], [0, 1, 2], 3, 0, 0, false⟩ : DataSet ℕ ℕ) = none :=
  ⟨(c7_invalid_batch_size [] 2 ⟨[0, 1, 2], [0, 1, 2], 3, 0, 0, false⟩).1 (by decide),
   (c7_invalid_batch_size [] 5 ⟨[0, 1, 2], [0, 1, 2], 3, 0, 0, false⟩).2 (by decide)⟩

/-- Claim C2, counterexample: when the sampled action equals the true
label the reward is `clip(2 - 0, 0, 5) = 2`, not `5` as the claim states. -/
theorem c2_reward_counterexample : rpReward 3 3 = 2 ∧ ¬ rpReward 3 3 = 5 := by
  decide

/-- Claim C2, amended: the reward of `random_policy` always lies in
`[0, 5]` (indeed in `[0, 2]`), and equals exactly `2` — the maximum of the
clip — when the sampled action equals the true label. -/
theorem c2_reward_range (action y : ℤ) :
    0 ≤ rpReward action y ∧ rpReward action y ≤ 5 ∧
      rpReward action y ≤ 2 ∧ rpReward y y = 2 := by
  have h0 : 0 ≤ |action - y| := abs_nonneg _
  have hyy : |y - y| = 0 := by simp
  unfold rpReward
  rw [hyy]
  refine ⟨?_, ?_, ?_, by norm_num⟩ <;> omega

/-- Dividing every entry of a list by a constant divides its sum. -/
lemma list_sum_map_div (l : List ℚ) (c : ℚ) :
    (l.map (fun x => x / c)).sum = l.sum / c := by
  induction l with
  | nil => simp
  | cons a l ih => simp [ih, add_div]

/-- The unnormalized weight vector of `random_policy` sums to
`9 * (5/9) + 5 = 10`, i.e. exactly `num_actions`. -/
lemma rpVecWeights_sum (y : Fin 10) : (rpVecWeights y).sum = 10 := by
  have hk : y.val < 10 := y.isLt
  rw [rpVecWeights, List.set_eq_take_cons_drop _
    (by simp [numActions])]
  rw [List.take_replicate, List.drop_replicate]
  simp only [List.sum_append, List.sum_cons, List.sum_replicate, numActions,
    rpH, nsmul_eq_mul]
  rw [Nat.min_eq_left (le_of_lt hk)]
  have hc : ((10 - (y.val + 1) : ℕ) : ℚ) = 9 - (y.val : ℚ) := by
    have : (10 - (y.val + 1) : ℕ) = 9 - y.val := by omega
    rw [this, Nat.cast_sub (by omega)]
    norm_num
  rw [hc]
  ring

/-- The normalized vector of `random_policy` sums to exactly 1. -/
lemma rpVec_sum (y : Fin 10) : (rpVec y).sum = 1 := by
  rw [rpVec, list_sum_map_div, rpVecWeights_sum]
  norm_num [numActions]

/-- Claim C8, counterexample to "not guaranteed to sum to 1": at each of
the ten possible true labels the probability vector of `random_policy`
sums to exactly 1 in exact arithmetic, because the unnormalized weights
sum to `(num_actions - 1) * H/(num_actions-1) + H = 2*H = num_actions`. -/
theorem c8_normalization_counterexample :
    (rpVec 0).sum = 1 ∧ (rpVec 1).sum = 1 ∧ (rpVec 2).sum = 1 ∧
    (rpVec 3).sum = 1 ∧ (rpVec 4).sum = 1 ∧ (rpVec 5).sum = 1 ∧
    (rpVec 6).sum = 1 ∧ (rpVec 7).sum = 1 ∧ (rpVec 8).sum = 1 ∧
    (rpVec 9).sum = 1 :=
  ⟨rpVec_sum 0, rpVec_sum 1, rpVec_sum 2, rpVec_sum 3, rpVec_sum 4,
   rpVec_sum 5, rpVec_sum 6, rpVec_sum 7, rpVec_sum 8, rpVec_sum 9⟩

/-- Claim C8, amended: the vector is indeed divided by the action count
`num_actions` rather than by an explicitly computed sum, but since the
unnormalized weights sum to exactly `num_actions` (as `2 * H = 10`), the
normalized vector always sums to exactly 1 in exact arithmetic. -/
theorem c8_normalization (y : Fin 10) :
    (rpVec y).sum = 1 ∧ (rpVecWeights y).sum = (numActions : ℚ) :=
  ⟨rpVec_sum y, by rw [rpVecWeights_sum]; norm_num [numActions]⟩

/-- An example pool whose images and labels are the identifiers
`0, ..., N-1`, used to track which pool positions a batch returns. -/
def initPool (N : ℕ) : DataSet ℕ ℕ :=
  ⟨List.range N, List.range N, N, 0, 0, false⟩

/-- As long as the cursor plus `k` batches stays within the pool,
`k` repeated `next_batch` calls never reshuffle: they return the `k`
consecutive slices after the cursor, leave images/labels/epoch counter
untouched, and advance the cursor by `k * batchSize`. -/
lemma runN_no_shuffle {α β : Type} (b : ℕ) :
    ∀ (k : ℕ) (perms : ℕ → List ℕ) (ds : DataSet α β),
      ds.indexInEpoch + k * b ≤ ds.numExamples →
      ∃ bs, runN perms b k ds =
          some (bs, ⟨ds.images, ds.labels, ds.numExamples, ds.epochsCompleted,
            ds.indexInEpoch + k * b, ds.oneHot⟩) ∧
        (bs.map Prod.fst).flatten =
          (ds.images.drop ds.indexInEpoch).take (k * b) := by
  intro k
  induction k with
  | zero =>
    intro perms ds _
    exact ⟨[], by simp [runN], by simp⟩
  | succ k ih =>
    intro perms ds h
    have hsm : (k + 1) * b = k * b + b := Nat.succ_mul k b
    have h1 : ds.indexInEpoch + b ≤ ds.numExamples := by omega
    have hstep : nextBatch (perms 0) b ds =
        some (((ds.images.drop ds.indexInEpoch).take b,
               (ds.labels.drop ds.indexInEpoch).take b),
          { ds with indexInEpoch := ds.indexInEpoch + b }) := by
      unfold nextBatch
      rw [if_neg (by omega)]
    obtain ⟨bs, hrun, hjoin⟩ := ih (fun i => perms (i + 1))
      { ds with indexInEpoch := ds.indexInEpoch + b } (by simp; omega)
    refine ⟨((ds.images.drop ds.indexInEpoch).take b,
             (ds.labels.drop ds.indexInEpoch).take b) :: bs, ?_, ?_⟩
    · show (nextBatch (perms 0) b ds).bind _ = _
      rw [hstep]
      simp only [Option.some_bind]
      rw [hrun]
      dsimp only
      rw [show ds.indexInEpoch + b + k * b = ds.indexInEpoch + (k + 1) * b from
        by omega]
      rfl
    · simp only [List.map_cons, List.flatten_cons, hjoin]
      rw [show (k + 1) * b = b + k * b from by omega, List.take_add]
      congr 1
      rw [List.drop_drop]

/-- A call that crosses the epoch boundary takes the reshuffle branch and
bumps `epochs_completed` by exactly one. -/
lemma nextBatch_shuffle {α β : Type} (perm : List ℕ) (b : ℕ) (ds : DataSet α β)
    (hlt : ds.numExamples < ds.indexInEpoch + b) (hle : b ≤ ds.numExamples) :
    ∃ r, nextBatch perm b ds = some r ∧
      r.2.epochsCompleted = ds.epochsCompleted + 1 := by
  unfold nextBatch
  rw [if_pos hlt, if_pos hle]
  exact ⟨_, rfl, rfl⟩

/-- Claim C1, amended: with a fixed batch size that divides the pool size,
the `N / b` calls of one epoch return consecutive, disjoint, increasing
slices whose concatenation is exactly the identifier sequence
`0, ..., N-1` (each pool position exactly once, in order), the epoch
counter stays `0` throughout, and the next call — the first of the next
pass — reshuffles and increments `epochs_completed` to exactly `1`.
(When `b` does not divide `N` the final `N mod b` positions of the epoch
are skipped; see the counterexample.) -/
theorem c1_epoch_partition (perms : ℕ → List ℕ) (N b : ℕ)
    (hb : 0 < b) (hN : 0 < N) (hdvd : b ∣ N) :
    ∃ bs dsf, runN perms b (N / b) (initPool N) = some (bs, dsf) ∧
      (bs.map Prod.fst).flatten = List.range N ∧
      dsf.epochsCompleted = 0 ∧ dsf.indexInEpoch = N ∧
      ∃ r, nextBatch (perms (N / b)) b dsf = some r ∧
        r.2.epochsCompleted = 1 := by
  have hmul : N / b * b = N := Nat.div_mul_cancel hdvd
  have hble : b ≤ N := Nat.le_of_dvd hN hdvd
  obtain ⟨bs, hrun, hjoin⟩ := runN_no_shuffle b (N / b) perms (initPool N)
    (by simp [initPool, hmul])
  simp only [initPool] at hrun hjoin
  refine ⟨bs, ⟨List.range N, List.range N, N, 0, 0 + N / b * b, false⟩,
    hrun, ?_, rfl, ?_, ?_⟩
  · rw [hjoin]
    simp [hmul, List.take_range]
  · show 0 + N / b * b = N
    omega
  · obtain ⟨r, hcall, hep⟩ := nextBatch_shuffle (perms (N / b)) b
      (⟨List.range N, List.range N, N, 0, 0 + N / b * b, false⟩ : DataSet ℕ ℕ)
      (by show N < 0 + N / b * b + b; omega) (by show b ≤ N; omega)
    exact ⟨r, hcall, by rw [hep]⟩

/-- Claim C1, counterexample: a pool of `N = 10` identifiers with batch
size `4` (which satisfies the claim's premise `batch_size ≤ N`):
three calls return positions `[0..3], [4..7], [0..3]` (here the shuffle
draw is the identity permutation, one of the possible draws), and
`epochs_completed` is already `1` — yet positions `8` and `9` were never
returned and position `0` repeated, so the calls do not cover the whole
pool exactly once before an index repeats, and the epoch counter
incremented after only 8 of the 10 examples were served. -/
theorem c1_epoch_partition_counterexample :
    ((runN (fun _ => List.range 10) 4 3 (initPool 10)).map
      (fun r => ((r.1.map Prod.fst).flatten, r.2.epochsCompleted))) =
        some ([0, 1, 2, 3, 4, 5, 6, 7, 0, 1, 2, 3], 1) ∧
    (8 : ℕ) ∉ [0, 1, 2, 3, 4, 5, 6, 7, 0, 1, 2, 3] ∧
    ¬ List.Nodup [0, 1, 2, 3, 4, 5, 6, 7, 0, 1, 2, 3] := by
  decide

/-- Witness for the amended C1 at `N = 4`, `b = 2`. -/
theorem c1_epoch_partition_witness :
    0 < 2 ∧ 0 < 4 ∧ 2 ∣ 4 ∧
    (∃ bs dsf, runN (fun _ => List.range 4) 2 (4 / 2) (initPool 4) =
        some (bs, dsf) ∧
      (bs.map Prod.fst).flatten = List.range 4 ∧
      dsf.epochsCompleted = 0 ∧ dsf.indexInEpoch = 4 ∧
      ∃ r, nextBatch ((fun _ => List.range 4) (4 / 2)) 2 dsf = some r ∧
        r.2.epochsCompleted = 1) :=
  ⟨by decide, by decide, by decide,
    c1_epoch_partition (fun _ => List.range 4) 4 2 (by decide) (by decide)
      (by decide)⟩

/-- A pair read from the same position of two lists belongs to their zip. -/
lemma pair_mem_zip {α β : Type} :
    ∀ (xs : List α) (ys : List β) (i : ℕ) (a : α) (c : β),
      xs[i]? = some a → ys[i]? = some c → (a, c) ∈ xs.zip ys := by
  intro xs
  induction xs with
  | nil => intro ys i a c ha; simp at ha
  | cons x xs ih =>
    intro ys i a c ha hc
    cases ys with
    | nil => simp at hc
    | cons y ys =>
      cases i with
      | zero =>
        simp only [List.getElem?_cons_zero, Option.some.injEq] at ha hc
        simp [List.zip_cons_cons, ← ha, ← hc]
      | succ i =>
        simp only [List.getElem?_cons_succ] at ha hc
        exact List.mem_cons_of_mem _ (ih ys i a c ha hc)

/-- Fancy-indexing two equal-length lists with the same index list keeps
every resulting pair a pair of the original zip. -/
lemma applyPerm_zip_subset {α β : Type} (xs : List α) (ys : List β)
    (h : xs.length = ys.length) :
    ∀ (p : List ℕ), ∀ pr ∈ (applyPerm p xs).zip (applyPerm p ys),
      pr ∈ xs.zip ys := by
  intro p
  induction p with
  | nil => intro pr hpr; simp [applyPerm] at hpr
  | cons i p ih =>
    intro pr hpr
    by_cases hi : i < xs.length
    · have ha : xs[i]? = some (xs.get ⟨i, hi⟩) := List.getElem?_eq_getElem hi
      have hi' : i < ys.length := by omega
      have hc : ys[i]? = some (ys.get ⟨i, hi'⟩) := List.getElem?_eq_getElem hi'
      have e1 : applyPerm (i :: p) xs = xs.get ⟨i, hi⟩ :: applyPerm p xs := by
        simp [applyPerm, List.filterMap_cons, ha]
      have e2 : applyPerm (i :: p) ys = ys.get ⟨i, hi'⟩ :: applyPerm p ys := by
        simp [applyPerm, List.filterMap_cons, hc]
      rw [e1, e2, List.zip_cons_cons] at hpr
      rcases List.mem_cons.mp hpr with h1 | h1
      · subst h1; exact pair_mem_zip xs ys i _ _ ha hc
      · exact ih pr h1
    · have ha : xs[i]? = none := List.getElem?_eq_none (by omega)
      have hc : ys[i]? = none := List.getElem?_eq_none (by omega)
      have e1 : applyPerm (i :: p) xs = applyPerm p xs := by
        simp [applyPerm, List.filterMap_cons, ha]
      have e2 : applyPerm (i :: p) ys = applyPerm p ys := by
        simp [applyPerm, List.filterMap_cons, hc]
      rw [e1, e2] at hpr
      exact ih pr hpr

/-- Fancy-indexing two equal-length lists with the same index list yields
lists of equal length. -/
lemma applyPerm_length_eq {α β : Type} (xs : List α) (ys : List β)
    (h : xs.length = ys.length) (p : List ℕ) :
    (applyPerm p xs).length = (applyPerm p ys).length := by
  induction p with
  | nil => simp [applyPerm]
  | cons i p ih =>
    by_cases hi : i < xs.length
    · have ha : xs[i]? = some (xs.get ⟨i, hi⟩) := List.getElem?_eq_getElem hi
      have hi' : i < ys.length := by omega
      have hc : ys[i]? = some (ys.get ⟨i, hi'⟩) := List.getElem?_eq_getElem hi'
      simp only [applyPerm, List.filterMap_cons, ha, hc] at ih ⊢
      simp [ih]
    · have ha : xs[i]? = none := List.getElem?_eq_none (by omega)
      have hc : ys[i]? = none := List.getElem?_eq_none (by omega)
      simp only [applyPerm, List.filterMap_cons, ha, hc] at ih ⊢
      exact ih

/-- One `next_batch` call applies the same reordering to images and labels:
every (image, label) pair of the new state was a pair of the old state,
and the two arrays keep equal lengths. -/
lemma nextBatch_align {α β : Type} (perm : List ℕ) (b : ℕ) (ds : DataSet α β)
    (h : ds.images.length = ds.labels.length) (r : _)
    (hr : nextBatch perm b ds = some r) :
    (∀ pr ∈ r.2.images.zip r.2.labels, pr ∈ ds.images.zip ds.labels) ∧
      r.2.images.length = r.2.labels.length := by
  unfold nextBatch at hr
  by_cases h1 : ds.numExamples < ds.indexInEpoch + b
  · rw [if_pos h1] at hr
    by_cases h2 : b ≤ ds.numExamples
    · rw [if_pos h2] at hr
      obtain rfl := Option.some.inj hr
      exact ⟨fun pr hpr => applyPerm_zip_subset ds.images ds.labels h perm pr hpr,
        applyPerm_length_eq ds.images ds.labels h perm⟩
    · rw [if_neg h2] at hr
      exact absurd hr (by simp)
  · rw [if_neg h1] at hr
    obtain rfl := Option.some.inj hr
    exact ⟨fun pr hpr => hpr, h⟩

/-- Claim C4: after any number of `next_batch` calls (hence any number of
reshuffles, with arbitrary permutation draws), every (image, label) pair
stored in the pool is one of the original (image, label) pairs: each
reshuffle reorders images and labels by the same permutation, so the label
stored at a position is always the label originally associated with the
image stored there. -/
theorem c4_alignment {α β : Type} (b : ℕ) :
    ∀ (k : ℕ) (perms : ℕ → List ℕ) (ds : DataSet α β),
      ds.images.length = ds.labels.length →
      ∀ r, runN perms b k ds = some r →
        ∀ pr ∈ r.2.images.zip r.2.labels, pr ∈ ds.images.zip ds.labels := by
  intro k
  induction k with
  | zero =>
    intro perms ds h r hr
    simp only [runN] at hr
    obtain rfl := Option.some.inj hr
    exact fun pr hpr => hpr
  | succ k ih =>
    intro perms ds h r hr
    simp only [runN] at hr
    cases hs : nextBatch (perms 0) b ds with
    | none => rw [hs] at hr; simp at hr
    | some s =>
      rw [hs] at hr
      simp only [Option.some_bind] at hr
      cases ht : runN (fun i => perms (i + 1)) b k s.2 with
      | none => rw [ht] at hr; simp at hr
      | some t =>
        rw [ht] at hr
        simp only [Option.map_some'] at hr
        obtain rfl := Option.some.inj hr
        obtain ⟨hsub, hlen⟩ := nextBatch_align (perms 0) b ds h s hs
        intro pr hpr
        exact hsub pr (ih (fun i => perms (i + 1)) s.2 hlen t ht pr hpr)

/-- Witness for C4: a two-example pool `images = [10, 20]`,
`labels = [5, 7]`, run for two calls of batch size 2; the second call
reshuffles with permutation `[1, 0]`, giving state
`images = [20, 10]`, `labels = [7, 5]`; the pair stored at position 0
of the shuffled state, `(20, 7)`, is an original pair. -/
theorem c4_alignment_witness :
    ((20 : ℕ), (7 : ℕ)) ∈ (([10, 20] : List ℕ).zip ([5, 7] : List ℕ)) :=
  c4_alignment 2 2 (fun _ => [1, 0]) ⟨[10, 20], [5, 7], 2, 0, 0, false⟩ rfl
    ([([10, 20], [5, 7]), ([20, 10], [7, 5])], ⟨[20, 10], [7, 5], 2, 1, 2, false⟩)
    rfl (20, 7) (by decide)

/-- The constant fake image `[1] * 784` of `next_batch` in fake-data mode
(line 167). -/
def fakeImage : List ℕ := List.replicate 784 1

/-- The constant fake label (lines 168-171): one-hot `[1] + [0]*9` when
the pool stored `one_hot`, scalar `0` otherwise. -/
def fakeLabel (oneHot : Bool) : List ℕ ⊕ ℕ :=
  if oneHot then Sum.inl (1 :: List.replicate 9 0) else Sum.inr 0

/-- `DataSet.next_batch` with its `fake_data` argument made explicit
(lines 162-189): only when the caller passes `fake_data=True` does the
call return `batch_size` copies of the constant fake image/label (leaving
the pool state untouched); otherwise the real path `nextBatch` runs,
whatever pool the method was called on.  Image/label types are
instantiated for the fake-data pools, whose stored arrays are the empty
Python lists. -/
def nextBatchFull (perm : List ℕ) (fakeData : Bool) (batchSize : ℕ)
    (ds : DataSet (List ℕ) (List ℕ ⊕ ℕ)) :
    Option ((List (List ℕ) × List (List ℕ ⊕ ℕ)) ×
      DataSet (List ℕ) (List ℕ ⊕ ℕ)) :=
  if fakeData then
    some ((List.replicate batchSize fakeImage,
           List.replicate batchSize (fakeLabel ds.oneHot)), ds)
  else nextBatch perm batchSize ds

/-- The pool built by `DataSet.__init__` with `fake_data=True`
(lines 119-121): `_num_examples = 10000`, `one_hot` stored, and the
constructor arguments — empty lists in `read_data_sets`'s fake path —
kept as the image/label arrays. -/
def fakePool (oneHot : Bool) : DataSet (List ℕ) (List ℕ ⊕ ℕ) :=
  ⟨[], [], 10000, 0, 0, oneHot⟩

/-- Repeated `nextBatchFull` calls with per-call batch sizes
(`sizes i` is the batch size of call `i`). -/
def runFullN (perm : List ℕ) (fakeData : Bool) (sizes : ℕ → ℕ) :
    ℕ → DataSet (List ℕ) (List ℕ ⊕ ℕ) →
    Option (List (List (List ℕ) × List (List ℕ ⊕ ℕ)) ×
      DataSet (List ℕ) (List ℕ ⊕ ℕ))
  | 0, ds => some ([], ds)
  | k + 1, ds =>
    (nextBatchFull perm fakeData (sizes 0) ds).bind (fun s =>
      (runFullN perm fakeData (fun i => sizes (i + 1)) k s.2).map (fun t =>
        (s.1 :: t.1, t.2)))

/-- Claim C6, counterexample: on a pool constructed in fake-data mode, a
`next_batch` call with the default `fake_data=False` argument does not
return the constant batch: it runs the real path over the empty stored
arrays and returns two empty lists instead of 4 copies of the fake
image. -/
theorem c6_fake_data_counterexample :
    nextBatchFull [] false 4 (fakePool true) =
      some ((([] : List (List ℕ)), ([] : List (List ℕ ⊕ ℕ))),
        ⟨[], [], 10000, 0, 4, true⟩) ∧
    (([] : List (List ℕ)) ≠ List.replicate 4 fakeImage) := by
  exact ⟨rfl, by decide⟩

/-- Claim C6, amended: `next_batch` returns the constant filler batch
exactly when its own `fake_data` argument is true: in that case any
sequence of calls, with arbitrary per-call batch sizes, returns for call
`i` exactly `sizes i` copies of the all-ones 784-vector and `sizes i`
copies of the fixed label (one-hot `[1,0,...,0]` or scalar `0` according
to the stored `one_hot` flag), and leaves the pool state unchanged — so
the output is the same regardless of call count.  With the default
`fake_data=False`, a fake pool's call instead runs the real path (see the
counterexample). -/
theorem c6_fake_mode_constant (perm : List ℕ) :
    ∀ (k : ℕ) (sizes : ℕ → ℕ) (ds : DataSet (List ℕ) (List ℕ ⊕ ℕ)),
      runFullN perm true sizes k ds =
        some ((List.range k).map (fun i =>
          (List.replicate (sizes i) fakeImage,
           List.replicate (sizes i) (fakeLabel ds.oneHot))), ds) := by
  intro k
  induction k with
  | zero => intro sizes ds; simp [runFullN]
  | succ k ih =>
    intro sizes ds
    show (nextBatchFull perm true (sizes 0) ds).bind _ = _
    rw [show nextBatchFull perm true (sizes 0) ds =
      some ((List.replicate (sizes 0) fakeImage,
             List.replicate (sizes 0) (fakeLabel ds.oneHot)), ds) from rfl]
    simp only [Option.some_bind]
    rw [ih (fun i => sizes (i + 1)) ds]
    simp only [Option.map_some']
    congr 1
    rw [List.range_succ_eq_map]
    simp [List.map_map, Function.comp]

/-- Class attribute `bsz = 16` of `MNISTDataSet` (line 101). -/
def bszDefault : ℕ := 16

/-- Class attribute `num_a = 3` of `MNISTDataSet` (line 104): the default
number of digits mixed into one scene. -/
def numA : ℕ := 3

/-- The inner placement loop of `DataSet.next_mix_batch`
(lines 285-292) for one scene: for `n = 0, ..., NUM-1` it reads the
band draws `hor[n]` and `vert[n]` (arrays of three `randint` draws),
computes the pasted block's top-left corner
`(h, min(vert[n] + 14*n, width - 14))`, and appends label `Y[base + n]`.
The pixel content of the pasted 14x14 block (`zoom` of the source digit)
is abstracted away: the model records the corner of each written block
and the collected labels.  An out-of-range array access — the Python
`IndexError` — is `none`. -/
def mixScene (width : ℤ) (vert hor : List ℤ) (ys : List ℤ) (base : ℕ) :
    ℕ → Option (List (ℤ × ℤ) × List ℤ)
  | 0 => some ([], [])
  | n + 1 =>
    (mixScene width vert hor ys base n).bind (fun acc =>
      (hor[n]?).bind (fun h =>
        (vert[n]?).bind (fun v0 =>
          (ys[base + n]?).map (fun y =>
            (acc.1 ++ [(h, min (v0 + 14 * (n : ℤ)) (width - 14))],
             acc.2 ++ [y])))))

/-- The scene loop of `DataSet.next_mix_batch` (lines 280-294): scene `b`
uses the fresh draws `verts b` (from `randint(0, max(width/3 - 14, 1), (3,))`)
and `hors b` (from `randint(0, height - 14, (3,))`) and the labels
`Y[b*NUM], ..., Y[b*NUM + NUM - 1]` of the single `next_batch(bsz*NUM)`
call. -/
def nextMixBatch (width : ℤ) (NUM : ℕ) (verts hors : ℕ → List ℤ)
    (Y : List ℤ) : ℕ → Option (List (List (ℤ × ℤ) × List ℤ))
  | 0 => some []
  | b + 1 =>
    (nextMixBatch width NUM verts hors Y b).bind (fun scenes =>
      (mixScene width (verts b) (hors b) Y (b * NUM) NUM).map (fun sc =>
        scenes ++ [sc]))

/-- Per-scene guarantees of the placement loop: the label list has one
label per placed component, and every pasted block's corner keeps the
14x14 block inside `[0, height) x [0, width]`, given the `randint`
ranges of the draws and a canvas at least as wide as a sub-image. -/
lemma mixScene_spec (width height : ℤ) (vert hor : List ℤ) (ys : List ℤ)
    (base : ℕ) (hw : 14 ≤ width)
    (hv : ∀ x ∈ vert, 0 ≤ x)
    (hh : ∀ x ∈ hor, 0 ≤ x ∧ x < height - 14) :
    ∀ (NUM : ℕ) (acc : List (ℤ × ℤ) × List ℤ),
      mixScene width vert hor ys base NUM = some acc →
      acc.2.length = NUM ∧
        ∀ p ∈ acc.1, 0 ≤ p.1 ∧ p.1 + 14 ≤ height ∧
          0 ≤ p.2 ∧ p.2 + 14 ≤ width := by
  intro NUM
  induction NUM with
  | zero =>
    intro acc hacc
    simp only [mixScene] at hacc
    obtain rfl := Option.some.inj hacc
    exact ⟨rfl, by simp⟩
  | succ n ih =>
    intro acc hacc
    simp only [mixScene] at hacc
    cases hm : mixScene width vert hor ys base n with
    | none => rw [hm] at hacc; simp at hacc
    | some acc0 =>
      rw [hm] at hacc
      simp only [Option.some_bind] at hacc
      cases hhn : hor[n]? with
      | none => rw [hhn] at hacc; simp at hacc
      | some hb =>
        rw [hhn] at hacc
        simp only [Option.some_bind] at hacc
        cases hvn : vert[n]? with
        | none => rw [hvn] at hacc; simp at hacc
        | some v0 =>
          rw [hvn] at hacc
          simp only [Option.some_bind] at hacc
          cases hyn : ys[base + n]? with
          | none => rw [hyn] at hacc; simp at hacc
          | some y =>
            rw [hyn] at hacc
            simp only [Option.map_some'] at hacc
            obtain rfl := Option.some.inj hacc
            obtain ⟨hlen, hbnd⟩ := ih acc0 hm
            refine ⟨by simp [hlen], ?_⟩
            intro p hp
            rcases List.mem_append.mp hp with hp | hp
            · exact hbnd p hp
            · have hpe : p = (hb, min (v0 + 14 * (n : ℤ)) (width - 14)) := by
                simpa using hp
              subst hpe
              have hhb := hh hb (List.getElem?_mem hhn)
              have hv0 := hv v0 (List.getElem?_mem hvn)
              have h14 : (0 : ℤ) ≤ 14 * (n : ℤ) := by positivity
              refine ⟨hhb.1, by omega, ?_, ?_⟩
              · exact le_min (by omega) (by omega)
              · have hmr := min_le_right (v0 + 14 * (n : ℤ)) (width - 14)
                omega

/-- Every scene of a successful `next_mix_batch` call comes from the
placement loop of some scene index `b < bsz`. -/
lemma nextMixBatch_mem (width : ℤ) (NUM : ℕ) (verts hors : ℕ → List ℤ)
    (Y : List ℤ) :
    ∀ (bsz : ℕ) (scenes : List (List (ℤ × ℤ) × List ℤ)),
      nextMixBatch width NUM verts hors Y bsz = some scenes →
      ∀ sc ∈ scenes, ∃ b, b < bsz ∧
        mixScene width (verts b) (hors b) Y (b * NUM) NUM = some sc := by
  intro bsz
  induction bsz with
  | zero =>
    intro scenes h sc hsc
    simp only [nextMixBatch] at h
    obtain rfl := Option.some.inj h
    simp at hsc
  | succ b ih =>
    intro scenes h sc hsc
    simp only [nextMixBatch] at h
    cases hr : nextMixBatch width NUM verts hors Y b with
    | none => rw [hr] at h; simp at h
    | some scenes0 =>
      rw [hr] at h
      simp only [Option.some_bind] at h
      cases hm : mixScene width (verts b) (hors b) Y (b * NUM) NUM with
      | none => rw [hm] at h; simp at h
      | some sc1 =>
        rw [hm] at h
        simp only [Option.map_some'] at h
        obtain rfl := Option.some.inj h
        rcases List.mem_append.mp hsc with hsc | hsc
        · obtain ⟨b0, hb0, hmb⟩ := ih scenes0 hr sc hsc
          exact ⟨b0, by omega, hmb⟩
        · have hse : sc = sc1 := by simpa using hsc
          subst hse
          exact ⟨b, by omega, hm⟩

/-- A successful `next_mix_batch` call returns one scene per requested
batch element. -/
lemma nextMixBatch_length (width : ℤ) (NUM : ℕ) (verts hors : ℕ → List ℤ)
    (Y : List ℤ) :
    ∀ (bsz : ℕ) (scenes : List (List (ℤ × ℤ) × List ℤ)),
      nextMixBatch width NUM verts hors Y bsz = some scenes →
      scenes.length = bsz := by
  intro bsz
  induction bsz with
  | zero =>
    intro scenes h
    simp only [nextMixBatch] at h
    obtain rfl := Option.some.inj h
    rfl
  | succ b ih =>
    intro scenes h
    simp only [nextMixBatch] at h
    cases hr : nextMixBatch width NUM verts hors Y b with
    | none => rw [hr] at h; simp at h
    | some scenes0 =>
      rw [hr] at h
      simp only [Option.some_bind] at h
      cases hm : mixScene width (verts b) (hors b) Y (b * NUM) NUM with
      | none => rw [hm] at h; simp at h
      | some sc1 =>
        rw [hm] at h
        simp only [Option.map_some'] at h
        obtain rfl := Option.some.inj h
        simp [ih scenes0 hr]

/-- The placement loop succeeds whenever the component count stays within
the three-element draw arrays and the label batch is long enough. -/
lemma mixScene_isSome (width : ℤ) (vert hor : List ℤ) (ys : List ℤ)
    (base : ℕ) :
    ∀ NUM, NUM ≤ vert.length → NUM ≤ hor.length → base + NUM ≤ ys.length →
      (mixScene width vert hor ys base NUM).isSome = true := by
  intro NUM
  induction NUM with
  | zero => intro _ _ _; simp [mixScene]
  | succ n ih =>
    intro h1 h2 h3
    obtain ⟨acc0, hm⟩ :=
      Option.isSome_iff_exists.mp (ih (by omega) (by omega) (by omega))
    have hh : hor[n]? = some (hor.get ⟨n, by omega⟩) :=
      List.getElem?_eq_getElem (by omega)
    have hv : vert[n]? = some (vert.get ⟨n, by omega⟩) :=
      List.getElem?_eq_getElem (by omega)
    have hy : ys[base + n]? = some (ys.get ⟨base + n, by omega⟩) :=
      List.getElem?_eq_getElem (by omega)
    simp [mixScene, hm, hh, hv, hy]

/-- With more components than the three drawn band offsets, the placement
loop reads past the end of `hor` and fails. -/
lemma mixScene_none_of_big (width : ℤ) (vert hor : List ℤ) (ys : List ℤ)
    (base : ℕ) (NUM : ℕ) (hhor : hor.length = 3) (hN : 3 < NUM) :
    mixScene width vert hor ys base NUM = none := by
  obtain ⟨n, rfl⟩ : ∃ n, NUM = n + 1 := ⟨NUM - 1, by omega⟩
  have hnone : hor[n]? = none := List.getElem?_eq_none (by omega)
  cases hm : mixScene width vert hor ys base n with
  | none => simp [mixScene, hm]
  | some acc0 => simp [mixScene, hm, hnone]

/-- `next_mix_batch` succeeds when every scene's placement loop does. -/
lemma nextMixBatch_isSome (width : ℤ) (NUM : ℕ) (verts hors : ℕ → List ℤ)
    (Y : List ℤ) :
    ∀ m, (∀ b, b < m → NUM ≤ (verts b).length ∧ NUM ≤ (hors b).length ∧
        b * NUM + NUM ≤ Y.length) →
      (nextMixBatch width NUM verts hors Y m).isSome = true := by
  intro m
  induction m with
  | zero => intro _; simp [nextMixBatch]
  | succ b ih =>
    intro h
    obtain ⟨scenes0, hr⟩ :=
      Option.isSome_iff_exists.mp (ih (fun b0 hb0 => h b0 (by omega)))
    obtain ⟨h1, h2, h3⟩ := h b (by omega)
    obtain ⟨sc, hm⟩ := Option.isSome_iff_exists.mp
      (mixScene_isSome width (verts b) (hors b) Y (b * NUM) NUM h1 h2 h3)
    simp [nextMixBatch, hr, hm]

/-- With at least one scene and more than three components,
`next_mix_batch` fails. -/
lemma nextMixBatch_none_of_big (width : ℤ) (NUM : ℕ)
    (verts hors : ℕ → List ℤ) (Y : List ℤ) (bsz : ℕ) (hb : 1 ≤ bsz)
    (hhor : ∀ b, (hors b).length = 3) (hN : 3 < NUM) :
    nextMixBatch width NUM verts hors Y bsz = none := by
  obtain ⟨m, rfl⟩ : ∃ m, bsz = m + 1 := ⟨bsz - 1, by omega⟩
  have hnone := mixScene_none_of_big width (verts m) (hors m) Y (m * NUM)
    NUM (hhor m) hN
  cases hr : nextMixBatch width NUM verts hors Y m with
  | none => simp [nextMixBatch, hr]
  | some scenes0 => simp [nextMixBatch, hr, hnone]

/-- Claim C3: whenever `next_mix_batch` returns (for any random draws in
their `randint` ranges, on a canvas at least one sub-image wide), every
pasted 14x14 block lies entirely inside the canvas: row range inside
`[0, height]` and clamped column range `min(vert[n] + 14*n, width - 14)`
to that value plus 14 inside `[0, width]`; and every returned scene's
label list has length exactly the requested component count `NUM`. -/
theorem c3_canvas_bounds (width height : ℤ) (NUM : ℕ)
    (verts hors : ℕ → List ℤ) (Y : List ℤ) (bsz : ℕ)
    (hw : 14 ≤ width)
    (hv : ∀ b, ∀ x ∈ verts b, 0 ≤ x ∧ x < max (width / 3 - 14) 1)
    (hh : ∀ b, ∀ x ∈ hors b, 0 ≤ x ∧ x < height - 14)
    (scenes : List (List (ℤ × ℤ) × List ℤ))
    (hs : nextMixBatch width NUM verts hors Y bsz = some scenes) :
    ∀ sc ∈ scenes, sc.2.length = NUM ∧
      ∀ p ∈ sc.1, 0 ≤ p.1 ∧ p.1 + 14 ≤ height ∧
        0 ≤ p.2 ∧ p.2 + 14 ≤ width := by
  intro sc hsc
  obtain ⟨b, hb, hm⟩ :=
    nextMixBatch_mem width NUM verts hors Y bsz scenes hs sc hsc
  exact mixScene_spec width height (verts b) (hors b) Y (b * NUM) hw
    (fun x hx => ((hv b) x hx).1) (hh b) NUM sc hm

/-- Witness for C3 on the default 45x45 canvas with `NUM = 3`, one scene,
draws `vert = [0,0,0]` (the only possible draw, since
`max(45/3 - 14, 1) = 1`) and `hor = [5,0,30]`: the scene's label list
`[7,1,2]` has length 3 and the first and last blocks, placed at corners
`(5,0)` and `(30,28)`, lie inside the canvas. -/
theorem c3_canvas_bounds_witness :
    ([(7 : ℤ), 1, 2] : List ℤ).length = 3 ∧
    (0 ≤ (5 : ℤ) ∧ (5 : ℤ) + 14 ≤ 45 ∧ 0 ≤ (0 : ℤ) ∧ (0 : ℤ) + 14 ≤ 45) ∧
    (0 ≤ (30 : ℤ) ∧ (30 : ℤ) + 14 ≤ 45 ∧ 0 ≤ (28 : ℤ) ∧ (28 : ℤ) + 14 ≤ 45) :=
  have h := c3_canvas_bounds 45 45 3 (fun _ => [0, 0, 0]) (fun _ => [5, 0, 30])
    [7, 1, 2] 1 (by decide)
    (by intro b
        show ∀ x ∈ ([0, 0, 0] : List ℤ), 0 ≤ x ∧ x < max ((45 : ℤ) / 3 - 14) 1
        decide)
    (by intro b
        show ∀ x ∈ ([5, 0, 30] : List ℤ), 0 ≤ x ∧ x < (45 : ℤ) - 14
        decide)
    [([(5, 0), (0, 14), (30, 28)], [7, 1, 2])] rfl
    ([(5, 0), (0, 14), (30, 28)], [7, 1, 2]) (by decide)
  ⟨h.1, h.2 (5, 0) (by decide), h.2 (30, 28) (by decide)⟩

/-- Claim C9: `next_mix_batch` draws exactly three vertical and three
horizontal band offsets regardless of the requested component count, so
(with at least one scene, and the label batch of the length
`next_batch(bsz*NUM)` produces) the call succeeds exactly when
`NUM ≤ 3`; for `NUM > 3` the placement loop reads past the end of the
three-element draw arrays and the call fails. -/
theorem c9_component_limit (width : ℤ) (NUM : ℕ) (verts hors : ℕ → List ℤ)
    (Y : List ℤ) (bsz : ℕ) (hb : 1 ≤ bsz)
    (hvl : ∀ b, (verts b).length = 3) (hhl : ∀ b, (hors b).length = 3)
    (hY : Y.length = bsz * NUM) :
    (nextMixBatch width NUM verts hors Y bsz).isSome = true ↔ NUM ≤ 3 := by
  constructor
  · intro hsome
    by_contra hN
    rw [nextMixBatch_none_of_big width NUM verts hors Y bsz hb hhl
      (by omega)] at hsome
    simp at hsome
  · intro hN
    refine nextMixBatch_isSome width NUM verts hors Y bsz (fun b hb0 => ?_)
    refine ⟨by rw [hvl b]; omega, by rw [hhl b]; omega, ?_⟩
    have hle : (b + 1) * NUM ≤ bsz * NUM :=
      Nat.mul_le_mul_right NUM (by omega)
    calc b * NUM + NUM = (b + 1) * NUM := by ring
    _ ≤ bsz * NUM := hle
    _ = Y.length := hY.symm

/-- Witness for C9: one scene, four components, three-element draw
arrays: the call fails (`isSome` is false, matching `¬ (4 ≤ 3)`). -/
theorem c9_component_limit_witness :
    1 ≤ 1 ∧
    ((nextMixBatch 45 4 (fun _ => [0, 0, 0]) (fun _ => [0, 0, 0])
      ([0, 1, 2, 3] : List ℤ) 1).isSome = true ↔ 4 ≤ 3) :=
  ⟨by decide,
    c9_component_limit 45 4 (fun _ => [0, 0, 0]) (fun _ => [0, 0, 0])
      [0, 1, 2, 3] 1 (by decide) (fun _ => rfl) (fun _ => rfl) rfl⟩

/-- The reward loop of `DataSet.simulate_logged_bandit` (lines 241-246):
reward `i` is 1 exactly when the drawn action `recommend[i]` occurs in
the scene label list `LBL[i]`, else 0 (the `np.zeros` initialization
overwritten by the membership test); an index past the end of either
array is the Python `IndexError`, modelled as `none`. -/
def simLoggedRewards (LBL : List (List ℤ)) (rc : List ℤ) :
    ℕ → Option (List ℤ)
  | 0 => some []
  | i + 1 =>
    (simLoggedRewards LBL rc i).bind (fun rs =>
      (rc[i]?).bind (fun a =>
        (LBL[i]?).map (fun lbl =>
          rs ++ [if a ∈ lbl then (1 : ℤ) else 0])))

/-- `DataSet.simulate_logged_bandit` (lines 232-248): the scene batch is
drawn by `self.next_mix_batch()` with no arguments, i.e. with the class
defaults `bsz = 16` and `NUM = num_a = 3`, whatever `bsz` argument the
caller passed; then `bsz` uniformly drawn actions `rc` are scored against
the scene labels.  The one-hot encoding `onehot(recommend)` of the
returned action array is represented by the action list itself. -/
def simulateLoggedBandit (width : ℤ) (verts hors : ℕ → List ℤ)
    (Y : List ℤ) (rc : List ℤ) (bsz : ℕ) :
    Option (List (List (ℤ × ℤ) × List ℤ) × List ℤ × List ℤ) :=
  (nextMixBatch width numA verts hors Y bszDefault).bind (fun scenes =>
    (simLoggedRewards (scenes.map Prod.snd) rc bsz).map (fun rewards =>
      (scenes, rc, rewards)))

/-- The reward loop returns one reward per processed index, and reward
`i` is the membership indicator of action `i` in label set `i`. -/
lemma simLoggedRewards_spec (LBL : List (List ℤ)) (rc : List ℤ) :
    ∀ (bsz : ℕ) (rs : List ℤ), simLoggedRewards LBL rc bsz = some rs →
      rs.length = bsz ∧
      ∀ i, i < bsz → ∀ a ∈ rc[i]?, ∀ lbl ∈ LBL[i]?,
        rs[i]? = some (if a ∈ lbl then (1 : ℤ) else 0) := by
  intro bsz
  induction bsz with
  | zero =>
    intro rs h
    simp only [simLoggedRewards] at h
    obtain rfl := Option.some.inj h
    exact ⟨rfl, fun i hi => absurd hi (Nat.not_lt_zero i)⟩
  | succ n ih =>
    intro rs h
    simp only [simLoggedRewards] at h
    cases hr : simLoggedRewards LBL rc n with
    | none => rw [hr] at h; simp at h
    | some rs0 =>
      rw [hr] at h
      simp only [Option.some_bind] at h
      cases ha : rc[n]? with
      | none => rw [ha] at h; simp at h
      | some a0 =>
        rw [ha] at h
        simp only [Option.some_bind] at h
        cases hl : LBL[n]? with
        | none => rw [hl] at h; simp at h
        | some lbl0 =>
          rw [hl] at h
          simp only [Option.map_some'] at h
          obtain rfl := Option.some.inj h
          obtain ⟨hlen, hval⟩ := ih rs0 hr
          refine ⟨by simp [hlen], ?_⟩
          intro i hi a hma lbl hml
          by_cases hin : i < n
          · rw [List.getElem?_append_left (by omega)]
            exact hval i hin a hma lbl hml
          · have hieq : i = n := by omega
            subst hieq
            simp only [Option.mem_def] at hma hml
            rw [ha] at hma
            rw [hl] at hml
            obtain rfl := Option.some.inj hma
            obtain rfl := Option.some.inj hml
            rw [List.getElem?_append_right (by omega)]
            simp [hlen]

/-- The reward loop fails as soon as it runs past the scene batch. -/
lemma simLoggedRewards_none (LBL : List (List ℤ)) (rc : List ℤ) :
    ∀ bsz, LBL.length < bsz → simLoggedRewards LBL rc bsz = none := by
  intro bsz
  induction bsz with
  | zero => intro h; exact absurd h (Nat.not_lt_zero _)
  | succ n ih =>
    intro h
    by_cases hn : LBL.length < n
    · simp [simLoggedRewards, ih hn]
    · have hlen : LBL[n]? = none := List.getElem?_eq_none (by omega)
      cases hr : simLoggedRewards LBL rc n with
      | none => simp [simLoggedRewards, hr]
      | some rs0 =>
        cases ha : rc[n]? with
        | none => simp [simLoggedRewards, hr, ha]
        | some a0 => simp [simLoggedRewards, hr, ha, hlen]

/-- The reward loop succeeds while both arrays are long enough. -/
lemma simLoggedRewards_isSome (LBL : List (List ℤ)) (rc : List ℤ) :
    ∀ bsz, bsz ≤ LBL.length → bsz ≤ rc.length →
      (simLoggedRewards LBL rc bsz).isSome = true := by
  intro bsz
  induction bsz with
  | zero => intro _ _; simp [simLoggedRewards]
  | succ n ih =>
    intro h1 h2
    obtain ⟨rs0, hr⟩ :=
      Option.isSome_iff_exists.mp (ih (by omega) (by omega))
    have ha : rc[n]? = some (rc.get ⟨n, by omega⟩) :=
      List.getElem?_eq_getElem (by omega)
    have hl : LBL[n]? = some (LBL.get ⟨n, by omega⟩) :=
      List.getElem?_eq_getElem (by omega)
    simp [simLoggedRewards, hr, ha, hl]

/-- Claim C5: in every `simulate_logged_bandit` batch, the reward vector
has one entry per processed scene, each reward is the indicator
`if recommend[i] ∈ LBL[i] then 1 else 0` — hence binary — and it equals
1 exactly when the drawn action occurs in that scene's component label
set. -/
theorem c5_binary_reward (width : ℤ) (verts hors : ℕ → List ℤ)
    (Y : List ℤ) (rc : List ℤ) (bsz : ℕ)
    (out : List (List (ℤ × ℤ) × List ℤ) × List ℤ × List ℤ)
    (h : simulateLoggedBandit width verts hors Y rc bsz = some out) :
    out.2.2.length = bsz ∧
    ∀ i, i < bsz → ∀ a ∈ rc[i]?, ∀ lbl ∈ (out.1.map Prod.snd)[i]?,
      out.2.2[i]? = some (if a ∈ lbl then (1 : ℤ) else 0) ∧
      (out.2.2[i]? = some 1 ↔ a ∈ lbl) ∧
      (out.2.2[i]? = some 0 ∨ out.2.2[i]? = some 1) := by
  unfold simulateLoggedBandit at h
  cases hsc : nextMixBatch width numA verts hors Y bszDefault with
  | none => rw [hsc] at h; simp at h
  | some scenes =>
    rw [hsc] at h
    simp only [Option.some_bind] at h
    cases hrw : simLoggedRewards (scenes.map Prod.snd) rc bsz with
    | none => rw [hrw] at h; simp at h
    | some rewards =>
      rw [hrw] at h
      simp only [Option.map_some'] at h
      obtain rfl := Option.some.inj h
      obtain ⟨hlen, hval⟩ := simLoggedRewards_spec _ rc bsz rewards hrw
      refine ⟨hlen, ?_⟩
      intro i hi a hma lbl hml
      have hv := hval i hi a hma lbl hml
      refine ⟨hv, ?_, ?_⟩
      · by_cases hmem : a ∈ lbl
        · simp [hv, hmem]
        · simp [hv, hmem]
      · by_cases hmem : a ∈ lbl
        · right; simp [hv, hmem]
        · left; simp [hv, hmem]

/-- The concrete output of `simulateLoggedBandit` in the C5 witness run:
16 identical scenes (the draws are all zero, so the three blocks sit at
columns 0, 14, 28 of row 0 and all labels are 0), the two drawn actions
`[5, 0]`, and rewards `[0, 1]`. -/
def c5OutW : List (List (ℤ × ℤ) × List ℤ) × List ℤ × List ℤ :=
  (List.replicate 16 ([(0, 0), (0, 14), (0, 28)], [0, 0, 0]), [5, 0], [0, 1])

/-- Witness for C5: a concrete run with two scored scenes; action 5 is
not among the labels (reward 0), action 0 is (reward 1). -/
theorem c5_binary_reward_witness :
    c5OutW.2.2.length = 2 ∧
    ∀ i, i < 2 → ∀ a ∈ ([5, 0] : List ℤ)[i]?,
      ∀ lbl ∈ (c5OutW.1.map Prod.snd)[i]?,
        c5OutW.2.2[i]? = some (if a ∈ lbl then (1 : ℤ) else 0) ∧
        (c5OutW.2.2[i]? = some 1 ↔ a ∈ lbl) ∧
        (c5OutW.2.2[i]? = some 0 ∨ c5OutW.2.2[i]? = some 1) :=
  c5_binary_reward 45 (fun _ => [0, 0, 0]) (fun _ => [0, 0, 0])
    (List.replicate 48 0) [5, 0] 2 c5OutW rfl

/-- Claim C10: `simulate_logged_bandit` always draws its scene batch via
`next_mix_batch()` with the class default batch size 16, ignoring its
`bsz` argument for scene generation.  For `bsz > 16` the reward loop
indexes past the end of the 16-entry scene label array and the call
fails; for `bsz ≤ 16` the call succeeds, the returned image array still
holds 16 scenes, and the action and reward arrays hold only `bsz`
entries. -/
theorem c10_default_scene_batch (width : ℤ) (verts hors : ℕ → List ℤ)
    (Y : List ℤ) (rc : List ℤ) (bsz : ℕ)
    (hvl : ∀ b, (verts b).length = 3) (hhl : ∀ b, (hors b).length = 3)
    (hY : Y.length = bszDefault * numA) (hrc : rc.length = bsz) :
    (bszDefault < bsz →
      simulateLoggedBandit width verts hors Y rc bsz = none) ∧
    (bsz ≤ bszDefault → ∃ out,
      simulateLoggedBandit width verts hors Y rc bsz = some out ∧
      out.1.length = bszDefault ∧ out.2.1.length = bsz ∧
      out.2.2.length = bsz) := by
  have hsome : (nextMixBatch width numA verts hors Y bszDefault).isSome
      = true := by
    refine nextMixBatch_isSome width numA verts hors Y bszDefault
      (fun b hb0 => ?_)
    refine ⟨by rw [hvl b]; decide, by rw [hhl b]; decide, ?_⟩
    have hle : (b + 1) * numA ≤ bszDefault * numA :=
      Nat.mul_le_mul_right numA (by omega)
    calc b * numA + numA = (b + 1) * numA := by ring
    _ ≤ bszDefault * numA := hle
    _ = Y.length := hY.symm
  obtain ⟨scenes, hsc⟩ := Option.isSome_iff_exists.mp hsome
  have hslen : scenes.length = bszDefault :=
    nextMixBatch_length width numA verts hors Y bszDefault scenes hsc
  have hLBLlen : (scenes.map Prod.snd).length = bszDefault := by
    simp [hslen]
  constructor
  · intro hgt
    have hnone := simLoggedRewards_none (scenes.map Prod.snd) rc bsz
      (by rw [hLBLlen]; exact hgt)
    simp [simulateLoggedBandit, hsc, hnone]
  · intro hle
    obtain ⟨rewards, hrw⟩ := Option.isSome_iff_exists.mp
      (simLoggedRewards_isSome (scenes.map Prod.snd) rc bsz
        (by rw [hLBLlen]; exact hle) (by omega))
    obtain ⟨hrlen, hv⟩ := simLoggedRewards_spec _ rc bsz rewards hrw
    refine ⟨(scenes, rc, rewards), ?_, hslen, hrc, hrlen⟩
    simp [simulateLoggedBandit, hsc, hrw]

/-- Witness for C10 at `bsz = 17` (one more than the class default 16):
the hypotheses hold for concrete draws and arrays, and the call fails
because `16 < 17`. -/
theorem c10_default_scene_batch_witness :
    (List.replicate 48 (0 : ℤ)).length = bszDefault * numA ∧
    (List.replicate 17 (0 : ℤ)).length = 17 ∧
    ((bszDefault < 17 →
      simulateLoggedBandit 45 (fun _ => [0, 0, 0]) (fun _ => [0, 0, 0])
        (List.replicate 48 0) (List.replicate 17 0) 17 = none) ∧
     (17 ≤ bszDefault → ∃ out,
      simulateLoggedBandit 45 (fun _ => [0, 0, 0]) (fun _ => [0, 0, 0])
        (List.replicate 48 0) (List.replicate 17 0) 17 = some out ∧
      out.1.length = bszDefault ∧ out.2.1.length = 17 ∧
      out.2.2.length = 17)) :=
  ⟨rfl, rfl,
    c10_default_scene_batch 45 (fun _ => [0, 0, 0]) (fun _ => [0, 0, 0])
      (List.replicate 48 0) (List.replicate 17 0) 17
      (fun _ => rfl) (fun _ => rfl) rfl rfl⟩
